import Mathlib

/-!
# Verification of the autonomous coding agent core

A shallow embedding, in Lean 4, of the pure content of the repository's
Python sources (`queue_manager.py`, `logger.py`, `task_executor.py`,
`test_runner.py`, `tireless_reviewer.py`, `git_manager.py`, `config.py`),
together with theorems settling the frozen specification claims.

Python strings are modelled as `List Char` (`Str`), with hand-rolled,
executable counterparts of the string primitives the sources use
(`str.split`, `str.strip`, `str.startswith`, `in`-substring tests,
`str.lower`).  SQLite tables are modelled as association lists of rows,
the asyncio priority queue as a list kept sorted by the same
`(-priority, sequence)` key the code pushes, and wall-clock timestamps
as natural numbers.  External effects (the Python `compile` builtin,
subprocesses, uuid generation) are abstracted as explicit parameters.
-/

namespace AgentSpec

/-- Python strings, modelled at character granularity. -/
abbrev Str := List Char

/-- Characters stripped by Python's `str.strip()` with no arguments. -/
def pySpace (c : Char) : Bool :=
  c = ' ' ∨ c = '\t' ∨ c = '\n' ∨ c = '\r' ∨ c = '\x0b' ∨ c = '\x0c'

/-- Python `str.lstrip()`. -/
def lstripS (s : Str) : Str := s.dropWhile pySpace

/-- Python `str.rstrip()`. -/
def rstripS (s : Str) : Str := (s.reverse.dropWhile pySpace).reverse

/-- Python `str.strip()`: whitespace removed from both ends. -/
def stripS (s : Str) : Str := rstripS (lstripS s)

/-- Python `a.startswith(b)`, a boolean list-front test. -/
def startsWithS : Str → Str → Bool
  | [], _ => true
  | _ :: _, [] => false
  | a :: as, b :: bs => if a = b then startsWithS as bs else false

/-- Python `s.split(c)` for a single-character separator:
always returns at least one (possibly empty) piece. -/
def splitOnChar (c : Char) : Str → List Str
  | [] => [[]]
  | x :: xs =>
    if x = c then [] :: splitOnChar c xs
    else
      match splitOnChar c xs with
      | [] => [[x]]
      | h :: t => (x :: h) :: t

/-- Python `sep.join(pieces)` for a single-character separator. -/
def joinWith (c : Char) : List Str → Str
  | [] => []
  | [p] => p
  | p :: q :: r => p ++ c :: joinWith c (q :: r)

/-- Locate the first occurrence of `sep` in a string, returning the text
before it and the text after it (the scan underlying `str.split(sep)` and
the `in` substring test). -/
def firstSplit (sep : Str) : Str → Option (Str × Str)
  | [] => if sep = [] then some ([], []) else none
  | c :: cs =>
    if startsWithS sep (c :: cs) then some ([], (c :: cs).drop sep.length)
    else
      match firstSplit sep cs with
      | none => none
      | some (b, a) => some (c :: b, a)

/-- Python's `sep in s` substring test. -/
def hasSub (sep s : Str) : Bool := (firstSplit sep s).isSome

/-- Python `s.split(sep)` for a multi-character separator, fuelled so that it is
structurally recursive (the fuel `s.length + 1` always suffices). -/
def splitOnSeqFuel (sep : Str) : Nat → Str → List Str
  | 0, s => [s]
  | fuel + 1, s =>
    match firstSplit sep s with
    | none => [s]
    | some (b, a) => b :: splitOnSeqFuel sep fuel a

/-- Python `s.split(sep)` for a multi-character separator. -/
def splitOnSeq (sep s : Str) : List Str := splitOnSeqFuel sep (s.length + 1) s

/-- The elements at odd indices of a list (`i % 2 == 1` in the Python
enumeration). -/
def oddIdx {α : Type} : List α → List α
  | [] => []
  | [_] => []
  | _ :: b :: rest => b :: oddIdx rest

/-- Python `str.lower()` (ASCII, which is all the sources rely on). -/
def lowerS (s : Str) : Str := s.map Char.toLower

/-- Python `a.endswith(b)`. -/
def endsWithS (s suf : Str) : Bool := startsWithS suf.reverse s.reverse

/-! ## `test_runner.py` — `TestRunner.extract_code_blocks`

The extractor walks the blob line by line, tracking the current named
file (`# File:` / `# filename:` markers), a fenced-code flag, and an
ordered `filename → code` map (a Python `dict`, here an association
list updated in place). -/

/-- The `'# File:'` marker. -/
def fileMarkerA : Str := "# File:".toList

/-- The `'# filename:'` marker. -/
def fileMarkerB : Str := "# filename:".toList

/-- Three backticks, the fence delimiter. -/
def ticks : Str := "```".toList

/-- Python `dict` assignment on an association list: an existing key is
updated in place, a new key is appended. -/
def dictInsert (k v : Str) : List (Str × Str) → List (Str × Str)
  | [] => [(k, v)]
  | (k', v') :: rest =>
    if k' = k then (k', v) :: rest else (k', v') :: dictInsert k v rest

/-- The loop state of `extract_code_blocks`.  `current_file` is `[]`
both for Python's initial `None` and for an empty (falsy) filename;
the code only ever tests its truthiness and uses it as a key. -/
structure ExtState where
  blocks : List (Str × Str)
  currentFile : Str
  currentCode : List Str
  inCodeBlock : Bool

/-- The save step `code_blocks[current_file] = ...` guarded by
`if current_file and current_code`. -/
def saveCurrent (st : ExtState) : List (Str × Str) :=
  if st.currentFile ≠ [] ∧ st.currentCode ≠ [] then
    dictInsert st.currentFile (joinWith '\n' st.currentCode) st.blocks
  else st.blocks

/-- One iteration of the `for line in lines` loop of
`extract_code_blocks`. -/
def processLine (st : ExtState) (line : Str) : ExtState :=
  if hasSub fileMarkerA line ∨ hasSub fileMarkerB line then
    { blocks := saveCurrent st,
      currentFile := stripS ((splitOnChar ':' line).getLastD []),
      currentCode := [],
      inCodeBlock := st.inCodeBlock }
  else if startsWithS ticks (stripS line) then
    if stripS line = ticks then { st with inCodeBlock := !st.inCodeBlock }
    else if hasSub ("python".toList) (lowerS line) then { st with inCodeBlock := true }
    else st
  else if st.inCodeBlock ∨ (st.currentFile ≠ [] ∧ ¬ startsWithS ("#".toList) line) then
    { st with currentCode := st.currentCode ++ [line] }
  else st

/-- The language-tag stripping applied to each fenced part in the
markdown fallback: drop the first line when it is `python`, `py` or
blank, then re-join. -/
def stripLangTag (p : Str) : Str :=
  joinWith '\n'
    (match splitOnChar '\n' p with
     | [] => []
     | l0 :: rest =>
       if stripS l0 = "python".toList ∨ stripS l0 = "py".toList ∨ stripS l0 = [] then rest
       else l0 :: rest)

/-- The `clean_code` computed by the fallback branch of
`extract_code_blocks`: if the blob contains a fence, keep only the
odd-indexed pieces of the `'```'` split, each with its language tag
stripped, re-joined by newlines; otherwise the blob itself. -/
def cleanFallback (text : Str) : Str :=
  if hasSub ticks text then joinWith '\n' ((oddIdx (splitOnSeq ticks text)).map stripLangTag)
  else text

/-- The function `TestRunner.extract_code_blocks`, over an ordered
`filename → code` map. -/
def extract_code_blocks (text : Str) : List (Str × Str) :=
  let st := (splitOnChar '\n' text).foldl processLine ⟨[], [], [], false⟩
  let blocks := saveCurrent st
  if blocks = [] ∧ stripS text ≠ [] then [("main.py".toList, stripS (cleanFallback text))]
  else blocks

/-- The blob built "by concatenating the extracted file contents" of a
blob (the claimed idempotence input): the values of the extracted map,
joined by newlines. -/
def concatExtract (text : Str) : Str :=
  joinWith '\n' ((extract_code_blocks text).map Prod.snd)

/-! ## `config.py` — `Config`

Only the fields the claims touch are modelled; each default mirrors the
`os.getenv(..., default)` fallback in the source. -/

/-- The configuration object of `config.py` (the claim-relevant fields). -/
structure Config where
  WORKER_COUNT : Nat
  MAX_RETRIES : Nat
  TASK_TIMEOUT : Nat
  CREATE_FOLLOWUP_TASKS : Bool
  MAJOR_TASK_GRACE_PERIOD_DAYS : Nat
deriving DecidableEq

/-- The environment-default configuration. -/
def defaultConfig : Config :=
  { WORKER_COUNT := 3, MAX_RETRIES := 3, TASK_TIMEOUT := 300,
    CREATE_FOLLOWUP_TASKS := true, MAJOR_TASK_GRACE_PERIOD_DAYS := 7 }

/-! ## `queue_manager.py` / `logger.py` — tasks, the store and the queue -/

/-- Task status strings. -/
inductive Status where
  | pending
  | running
  | completed
  | failed
deriving DecidableEq

/-- The `Task` dataclass of `queue_manager.py`.  `created_at` (an ISO
timestamp string in the source, whose lexicographic order is
chronological) is modelled as a natural number. -/
structure Task where
  task_id : Str
  description : Str
  priority : Int
  status : Status
  created_at : Nat
  retry_count : Nat
  max_retries : Nat
deriving DecidableEq

/-- `Task.from_text`: a fresh task from a description.  The uuid the
source draws is passed in as `fresh`. -/
def Task.from_text (cfg : Config) (fresh : Str) (now : Nat)
    (description : Str) (priority : Int) : Task :=
  { task_id := fresh, description := description, priority := priority,
    status := Status.pending, created_at := now, retry_count := 0,
    max_retries := cfg.MAX_RETRIES }

/-- One row of the SQLite `tasks` table (schema in
`DatabaseLogger.init_database`). -/
structure TaskRow where
  task_id : Str
  description : Str
  priority : Int
  status : Status
  created_at : Nat
  started_at : Option Nat
  completed_at : Option Nat
  worker_id : Option Str
  retry_count : Nat
  max_retries : Nat
  result : Option Str
  error_message : Option Str
deriving DecidableEq

/-- `DatabaseLogger.log_task_created`: `INSERT OR REPLACE INTO tasks
(task_id, description, priority, status, created_at) VALUES
(?, ?, ?, 'pending', CURRENT_TIMESTAMP)`.  SQLite `REPLACE` deletes any
row conflicting on the unique `task_id` and inserts a fresh row; every
unnamed column takes its schema default (`retry_count` 0,
`max_retries` 3, the rest NULL). -/
def log_task_created (tbl : List TaskRow) (tid desc : Str) (prio : Int)
    (now : Nat) : List TaskRow :=
  tbl.filter (fun r => r.task_id ≠ tid) ++
    [{ task_id := tid, description := desc, priority := prio,
       status := Status.pending, created_at := now, started_at := none,
       completed_at := none, worker_id := none, retry_count := 0,
       max_retries := 3, result := none, error_message := none }]

/-- Row lookup by `task_id`. -/
def findRow (tbl : List TaskRow) (tid : Str) : Option TaskRow :=
  tbl.find? (fun r => r.task_id = tid)

/-- One entry of the asyncio `PriorityQueue`: the tuple
`(-priority, counter, task)` that `put` pushes. -/
structure QEntry where
  negPriority : Int
  seq : Nat
  task : Task
deriving DecidableEq

/-- The heap's tuple order on entries (sequence numbers are distinct in
every reachable state, so this is total). -/
def entryLE (a b : QEntry) : Prop :=
  a.negPriority < b.negPriority ∨ (a.negPriority = b.negPriority ∧ a.seq ≤ b.seq)

instance : DecidableRel entryLE := fun a b => by
  unfold entryLE; infer_instance

instance : IsTotal QEntry entryLE where
  total a b := by
    unfold entryLE
    rcases lt_trichotomy a.negPriority b.negPriority with h | h | h
    · exact Or.inl (Or.inl h)
    · rcases Nat.le_total a.seq b.seq with h' | h'
      · exact Or.inl (Or.inr ⟨h, h'⟩)
      · exact Or.inr (Or.inr ⟨h.symm, h'⟩)
    · exact Or.inr (Or.inl h)

instance : IsTrans QEntry entryLE where
  trans a b c hab hbc := by
    unfold entryLE at *
    rcases hab with h1 | ⟨h1, h1'⟩ <;> rcases hbc with h2 | ⟨h2, h2'⟩
    · exact Or.inl (h1.trans h2)
    · exact Or.inl (h2 ▸ h1)
    · exact Or.inl (h1 ▸ h2)
    · exact Or.inr ⟨h1.trans h2, h1'.trans h2'⟩

/-- The combined mutable state touched by `PersistentTaskQueue` and the
store: the in-memory heap (a list kept sorted by the heap's tuple order,
a functional model of the binary heap), the monotonic `_task_counter`,
the SQLite `tasks` table, and the current clock used for
`CURRENT_TIMESTAMP`. -/
structure SysState where
  heap : List QEntry
  counter : Nat
  table : List TaskRow
  now : Nat
deriving DecidableEq

/-- A fresh queue over a given table. -/
def initSys (tbl : List TaskRow) : SysState :=
  { heap := [], counter := 0, table := tbl, now := 0 }

/-- Push `(-priority, counter, task)` and bump the counter — the heap
half of `put` (also used verbatim by `_load_persisted_tasks`). -/
def pushHeap (s : SysState) (t : Task) : SysState :=
  { s with
    heap := List.orderedInsert entryLE ⟨-t.priority, s.counter, t⟩ s.heap,
    counter := s.counter + 1 }

/-- `PersistentTaskQueue.put`: persist via `log_task_created`, then push
onto the heap.  (The source returns `False` when the database write
fails; persistence is modelled as always succeeding.) -/
def put (s : SysState) (t : Task) : SysState :=
  { pushHeap s t with
    table := log_task_created s.table t.task_id t.description t.priority s.now }

/-- A sequence of `put` calls. -/
def putMany (s : SysState) (ts : List Task) : SysState := ts.foldl put s

/-- `PersistentTaskQueue.get` (and `get_nowait`): pop the least tuple. -/
def getTask (s : SysState) : Option (Task × SysState) :=
  match s.heap with
  | [] => none
  | e :: rest => some (e.task, { s with heap := rest })

/-- The outcome of `retry_task`: the returned boolean, the state after,
and the (mutated) task object. -/
structure RetryOutcome where
  ok : Bool
  state : SysState
  task : Task
deriving DecidableEq

/-- `PersistentTaskQueue.retry_task`: refuse when
`retry_count >= max_retries`; otherwise increment `retry_count`, reset
the status to pending, floor the decremented priority at 0, and `put`
the task back. -/
def retry_task (s : SysState) (t : Task) : RetryOutcome :=
  if t.max_retries ≤ t.retry_count then ⟨false, s, t⟩
  else
    let t' := { t with retry_count := t.retry_count + 1,
                       status := Status.pending,
                       priority := max 0 (t.priority - 1) }
    ⟨true, put s t', t'⟩

/-! ## `queue_manager.py` — `_load_persisted_tasks` / `initialize` -/

/-- The `WHERE status IN ('pending', 'running')` filter. -/
def rowOpen (r : TaskRow) : Bool :=
  match r.status with
  | Status.pending => true
  | Status.running => true
  | _ => false

/-- The `ORDER BY priority DESC, created_at ASC` order. -/
def loadLE (a b : TaskRow) : Prop :=
  b.priority < a.priority ∨ (a.priority = b.priority ∧ a.created_at ≤ b.created_at)

instance : DecidableRel loadLE := fun a b => by
  unfold loadLE; infer_instance

instance : IsTotal TaskRow loadLE where
  total a b := by
    unfold loadLE
    rcases lt_trichotomy b.priority a.priority with h | h | h
    · exact Or.inl (Or.inl h)
    · rcases Nat.le_total a.created_at b.created_at with h' | h'
      · exact Or.inl (Or.inr ⟨h.symm, h'⟩)
      · exact Or.inr (Or.inr ⟨h, h'⟩)
    · exact Or.inr (Or.inl h)

instance : IsTrans TaskRow loadLE where
  trans a b c hab hbc := by
    unfold loadLE at *
    rcases hab with h1 | ⟨h1, h1'⟩ <;> rcases hbc with h2 | ⟨h2, h2'⟩
    · exact Or.inl (h2.trans h1)
    · exact Or.inl (h2 ▸ h1)
    · exact Or.inl (h1 ▸ h2)
    · exact Or.inr ⟨h1.trans h2, h1'.trans h2'⟩

/-- The `SELECT ... FROM tasks WHERE status IN ('pending','running')
ORDER BY priority DESC, created_at ASC` result list. -/
def load_open_tasks (tbl : List TaskRow) : List TaskRow :=
  List.insertionSort loadLE (tbl.filter rowOpen)

/-- The `Task(...)` built for each fetched row: every field is copied
from the row except `status`, which is reset to pending. -/
def rowToTask (r : TaskRow) : Task :=
  { task_id := r.task_id, description := r.description,
    priority := r.priority, status := Status.pending,
    created_at := r.created_at, retry_count := r.retry_count,
    max_retries := r.max_retries }

/-- `PersistentTaskQueue._load_persisted_tasks`: push each fetched row
onto the heap (no store write-back) in query order. -/
def load_persisted_tasks (s : SysState) : SysState :=
  (load_open_tasks s.table).foldl (fun s' r => pushHeap s' (rowToTask r)) s

/-- `PersistentTaskQueue.initialize` on a not-yet-initialized queue. -/
def initializeQueue (tbl : List TaskRow) : SysState :=
  load_persisted_tasks (initSys tbl)

/-! ## `test_runner.py` — `_run_pytest`, `quick_syntax_check` -/

/-- How the pytest subprocess ended: normal completion with a return
code, `subprocess.TimeoutExpired`, or any other exception. -/
inductive PytestOutcome where
  | completed (returncode : Int) (out err : Str)
  | timedOut
  | raised (msg : Str)
deriving DecidableEq

/-- The dictionary `_run_pytest` returns (`command` omitted; the
`error` key is absent on normal completion). -/
structure PytestResult where
  success : Bool
  exit_code : Int
  stdoutText : Str
  stderrText : Str
  errorMsg : Option Str
deriving DecidableEq

/-- The `'Timeout'` error tag of the timeout branch. -/
def timeoutTag : Str := "Timeout".toList

/-- `TestRunner._run_pytest`, as a function of how the subprocess
ended.  On `TimeoutExpired` the result is
`success=False, exit_code=124, error='Timeout'`; on any other
exception `exit_code=1`; on completion `success = (returncode == 0)`. -/
def run_pytest (o : PytestOutcome) : PytestResult :=
  match o with
  | PytestOutcome.completed rc out err =>
    { success := rc = 0, exit_code := rc, stdoutText := out,
      stderrText := err, errorMsg := none }
  | PytestOutcome.timedOut =>
    { success := false, exit_code := 124, stdoutText := [],
      stderrText := [], errorMsg := some timeoutTag }
  | PytestOutcome.raised m =>
    { success := false, exit_code := 1, stdoutText := [],
      stderrText := m, errorMsg := some m }

/-- `TestRunner.quick_syntax_check`, parameterized by the Python
`compile` builtin (`validate_python_syntax`'s oracle): extract the code
blocks, and syntax-check exactly the non-empty `.py` files.  Returns
`(all_valid, files_checked)` — the `success` flag and `files_checked`
count of the result dictionary. -/
def quick_syntax_check (compiles : Str → Bool) (text : Str) : Bool × Nat :=
  let blocks := extract_code_blocks text
  if blocks = [] then (false, 0)
  else
    let checked := blocks.filter
      (fun fc => endsWithS fc.1 (".py".toList) ∧ stripS fc.2 ≠ [])
    (checked.all (fun fc => compiles fc.2), checked.length)

/-! ## `task_executor.py` — `_process_task`, `_handle_task_failure` -/

/-- The effectful outcomes `_process_task` consumes: the model call
(`success` flag and generated text), the full test run, and the
`write_and_commit_code` call. -/
structure ProcEnv where
  genSuccess : Bool
  generatedCode : Str
  testsPassed : Bool
  commitSuccess : Bool
deriving DecidableEq

/-- What `_process_task` did: its return value, whether
`_handle_task_failure` ran, whether `log_task_completed` ran, whether
the commit-failure WARNING event was recorded, and whether a commit was
attempted at all. -/
structure ProcOutcome where
  success : Bool
  failureHandled : Bool
  completedLogged : Bool
  commitWarning : Bool
  commitAttempted : Bool
deriving DecidableEq

/-- `TaskExecutor._process_task`: generate, quick syntax check, run
tests, then (when any code files were extracted) write-and-commit — a
commit failure only logs a warning; the task still completes. -/
def process_task (compiles : Str → Bool) (env : ProcEnv) : ProcOutcome :=
  if ¬ (env.genSuccess ∧ stripS env.generatedCode ≠ []) then
    ⟨false, true, false, false, false⟩
  else if ¬ (quick_syntax_check compiles env.generatedCode).1 then
    ⟨false, true, false, false, false⟩
  else if ¬ env.testsPassed then
    ⟨false, true, false, false, false⟩
  else
    let code_files := extract_code_blocks env.generatedCode
    if code_files ≠ [] then
      ⟨true, false, true, ¬ env.commitSuccess, true⟩
    else
      ⟨true, false, true, false, false⟩

/-- `TaskExecutor._handle_task_failure`: retry via the queue when
`retry_count < max_retries`, else leave the task terminally failed.
Returns the state after plus whether a retry was enqueued. -/
def handle_task_failure (s : SysState) (t : Task) : SysState × Bool :=
  if t.retry_count < t.max_retries then
    let r := retry_task s t
    (r.state, r.ok)
  else (s, false)

/-! ## `tireless_reviewer.py` — major-task respect and follow-ups -/

/-- The hard-coded grace period of `TirelessReviewer.__init__`:
7 days in seconds. -/
def major_task_grace_period : Int := 7 * 24 * 3600

/-- The `major_indicators` keyword list. -/
def major_indicators : List Str :=
  ["major".toList, "large".toList, "significant".toList, "important".toList,
   "critical".toList, "epic".toList, "feature".toList, "refactor".toList,
   "migration".toList, "upgrade".toList, "redesign".toList]

/-- `TirelessReviewer._should_respect_major_task`, as a function of the
task description and of `time_since_completion` in seconds (a float in
the source; the claims only involve whole days). -/
def should_respect_major_task (desc : Str) (timeSince : Int) : Bool :=
  (major_indicators.any (fun k => hasSub k (lowerS desc))) ∧
    timeSince < major_task_grace_period

/-- The review statistics the claims mention. -/
structure ReviewStats where
  tasks_reviewed : Nat
  major_tasks_respected : Nat
deriving DecidableEq

/-- The body of `_primary_review_loop` for one completed task: consult
the respect rule; on respect bump `major_tasks_respected` and skip,
otherwise invoke `_review_completed_task`.  Returns the updated
statistics and whether the task was reviewed. -/
def primary_review_step (stats : ReviewStats) (desc : Str) (timeSince : Int) :
    ReviewStats × Bool :=
  if should_respect_major_task desc timeSince then
    ({ stats with major_tasks_respected := stats.major_tasks_respected + 1 }, false)
  else
    ({ stats with tasks_reviewed := stats.tasks_reviewed + 1 }, true)

/-- The per-category findings of a review (the categories the follow-up
decision reads). -/
structure ReviewResults where
  syntax_issues : List Str
  logic_errors : List Str
deriving DecidableEq

/-- The follow-up description `_create_followup_tasks` builds (the
f-string with the first five critical issues listed). -/
def followupDescription (tid : Str) (critical : List Str) : Str :=
  "\n🔍 Tireless Reviewer Follow-up for task ".toList ++ tid.take 8 ++
    ":\n\nCritical Issues Discovered:\n".toList ++
    joinWith '\n' ((critical.take 5).map (fun i => "- ".toList ++ i)) ++
    "\n\nThe Tireless Reviewer has identified these quality improvements. \nPlease address these findings to enhance code reliability and maintainability.\n".toList

/-- `TirelessReviewer._create_followup_tasks`: when the combined
`syntax_issues ++ logic_errors` count is at least 3, enqueue (via
`add_text_task`, i.e. `Task.from_text` then `put`) a follow-up task at
priority 2; otherwise do nothing.  `fresh` is the uuid drawn for the
new task.  Returns the state after and the created task id, if any.
Note the configuration is consulted only for `MAX_RETRIES` inside
`Task.from_text`; `CREATE_FOLLOWUP_TASKS` is never read. -/
def create_followup_tasks (cfg : Config) (fresh : Str) (s : SysState)
    (tid : Str) (r : ReviewResults) : SysState × Option Str :=
  let critical := r.syntax_issues ++ r.logic_errors
  if 3 ≤ critical.length then
    let t := Task.from_text cfg fresh s.now (followupDescription tid critical) 2
    (put s t, some fresh)
  else (s, none)

/-! ## Specification-side helper definitions -/

/-- The heap entries a sequence of enqueues pushes, with the counter
values they receive: entry `k` of `decorateFrom c ts` carries sequence
number `c + k`. -/
def decorateFrom (c : Nat) : List Task → List QEntry
  | [] => []
  | t :: ts => ⟨-t.priority, c, t⟩ :: decorateFrom (c + 1) ts

/-- Strict comparison of sequence numbers (enqueue order). -/
def seqLT (a b : QEntry) : Prop := a.seq < b.seq

instance : DecidableRel seqLT := fun a b => by
  unfold seqLT; infer_instance

instance : IsAntisymm QEntry seqLT where
  antisymm _ _ h h' := absurd (Nat.lt_trans h h') (Nat.lt_irrefl _)

/-! # Theorems -/

/-! ## Claim C1 — `retry_task` -/

/-- C1: for every task, queue retry behaves exactly as specified: if
`retry_count < max_retries`, retry returns success, increments
`retry_count` by 1, resets the status to pending, decrements the
priority by 1 flooring at 0, and re-inserts the task into the queue
(one new heap entry, everything else untouched); otherwise — including
`max_retries = 0` — it returns failure and leaves the state, hence the
queue, unchanged. -/
theorem C1_retry_task (s : SysState) (t : Task) :
    (t.retry_count < t.max_retries →
      (retry_task s t).ok = true ∧
      (retry_task s t).task.retry_count = t.retry_count + 1 ∧
      (retry_task s t).task.status = Status.pending ∧
      (retry_task s t).task.priority = max 0 (t.priority - 1) ∧
      ((retry_task s t).state.heap).Perm
        (⟨-(max 0 (t.priority - 1)), s.counter, (retry_task s t).task⟩ :: s.heap)) ∧
    (t.max_retries ≤ t.retry_count →
      (retry_task s t).ok = false ∧ (retry_task s t).state = s) := by
  constructor
  · intro h
    have hnot : ¬ t.max_retries ≤ t.retry_count := by omega
    simp only [retry_task, if_neg hnot, put, pushHeap]
    refine ⟨trivial, trivial, trivial, trivial, ?_⟩
    exact List.perm_orderedInsert _ _ _
  · intro h
    simp only [retry_task, if_pos h]
    exact ⟨trivial, trivial⟩

/-- Witness for C1: a task with one retry left is re-queued with
priority dropped from 3 to 2, and a task with `max_retries = 0` is
refused with the state unchanged. -/
theorem C1_retry_task_witness :
    ((retry_task (initSys []) ⟨"a".toList, "d".toList, 3, Status.failed, 0, 2, 3⟩).ok = true ∧
     (retry_task (initSys []) ⟨"a".toList, "d".toList, 3, Status.failed, 0, 2, 3⟩).task.priority = 2) ∧
    ((retry_task (initSys []) ⟨"b".toList, "d".toList, 3, Status.failed, 0, 0, 0⟩).ok = false ∧
     (retry_task (initSys []) ⟨"b".toList, "d".toList, 3, Status.failed, 0, 0, 0⟩).state =
       initSys []) := by
  have h1 := (C1_retry_task (initSys []) ⟨"a".toList, "d".toList, 3, Status.failed, 0, 2, 3⟩).1
    (by decide)
  have h2 := (C1_retry_task (initSys []) ⟨"b".toList, "d".toList, 3, Status.failed, 0, 0, 0⟩).2
    (by decide)
  refine ⟨⟨h1.1, ?_⟩, h2⟩
  rw [h1.2.2.2.1]
  decide

/-! ## Heap lemmas (shared by C2 and C3) -/

/-- Structural facts about decorated enqueue sequences: sequence
numbers start at the initial counter, the stored key is the negated
task priority, and the carried task is one of the enqueued tasks. -/
theorem mem_decorateFrom {c : Nat} {ts : List Task} {e : QEntry}
    (h : e ∈ decorateFrom c ts) :
    c ≤ e.seq ∧ e.negPriority = -e.task.priority ∧ e.task ∈ ts := by
  induction ts generalizing c with
  | nil => cases h
  | cons t ts ih =>
    rcases List.mem_cons.mp h with rfl | h'
    · exact ⟨Nat.le_refl _, rfl, List.mem_cons_self _ _⟩
    · obtain ⟨h1, h2, h3⟩ := ih h'
      exact ⟨by omega, h2, List.mem_cons_of_mem _ h3⟩

/-- Sequence numbers of a decorated enqueue sequence are strictly
increasing. -/
theorem decorateFrom_pairwise_seqLT (c : Nat) (ts : List Task) :
    (decorateFrom c ts).Pairwise seqLT := by
  induction ts generalizing c with
  | nil => exact List.Pairwise.nil
  | cons t ts ih =>
    refine List.Pairwise.cons ?_ (ih (c + 1))
    intro e he
    have := (mem_decorateFrom he).1
    show c < e.seq
    omega

/-- Decoration carries the tasks verbatim. -/
theorem decorateFrom_map_task (c : Nat) (ts : List Task) :
    (decorateFrom c ts).map QEntry.task = ts := by
  induction ts generalizing c with
  | nil => rfl
  | cons t ts ih => simp [decorateFrom, ih]

/-- Folding `pushHeap` over a task list: the heap gains exactly the
decorated entries (as a permutation), and the counter advances by the
number of pushes. -/
theorem foldl_pushHeap_spec (ts : List Task) : ∀ s : SysState,
    ((ts.foldl pushHeap s).heap).Perm (decorateFrom s.counter ts ++ s.heap) ∧
    (ts.foldl pushHeap s).counter = s.counter + ts.length := by
  induction ts with
  | nil => exact fun s => ⟨List.Perm.refl _, rfl⟩
  | cons t ts ih =>
    intro s
    obtain ⟨hperm, hcount⟩ := ih (pushHeap s t)
    simp only [pushHeap] at hperm hcount
    constructor
    · simp only [List.foldl_cons, pushHeap, decorateFrom, List.cons_append]
      refine hperm.trans ?_
      exact (List.Perm.append_left _ (List.perm_orderedInsert _ _ _)).trans List.perm_middle
    · simp only [List.foldl_cons, pushHeap, List.length_cons]
      rw [hcount]
      omega

/-- Folding `pushHeap` preserves sortedness of the heap. -/
theorem foldl_pushHeap_sorted (ts : List Task) : ∀ s : SysState,
    List.Sorted entryLE s.heap → List.Sorted entryLE ((ts.foldl pushHeap s).heap) := by
  induction ts with
  | nil => exact fun _ h => h
  | cons t ts ih =>
    intro s h
    exact ih _ (List.Sorted.orderedInsert _ _ h)

/-- A `put` fold and a `pushHeap` fold agree on heap and counter
whenever their starting states do (the store write of `put` never
feeds back into the heap). -/
theorem foldl_put_heap_counter (ts : List Task) : ∀ s₁ s₂ : SysState,
    s₁.heap = s₂.heap → s₁.counter = s₂.counter →
    (ts.foldl put s₁).heap = (ts.foldl pushHeap s₂).heap ∧
      (ts.foldl put s₁).counter = (ts.foldl pushHeap s₂).counter := by
  induction ts with
  | nil => exact fun _ _ h1 h2 => ⟨h1, h2⟩
  | cons t ts ih =>
    intro s₁ s₂ h1 h2
    apply ih
    · show List.orderedInsert entryLE ⟨-t.priority, s₁.counter, t⟩ s₁.heap =
        List.orderedInsert entryLE ⟨-t.priority, s₂.counter, t⟩ s₂.heap
      rw [h1, h2]
    · show s₁.counter + 1 = s₂.counter + 1
      rw [h2]

/-! ## Claim C2 — strict priority order, FIFO within a priority -/

/-- C2: for every sequence of `put` operations on a fresh queue, the
resulting dequeue order (the sorted heap, popped front to back) is a
permutation of the enqueued entries in which any strictly
higher-priority task is dequeued before any lower-priority one, and —
FIFO within a priority — the subsequence of any fixed priority equals
the enqueue-order subsequence of that priority, ties being broken by
the monotonic sequence counter. -/
theorem C2_priority_fifo (ts : List Task) :
    (((putMany (initSys []) ts).heap).Perm (decorateFrom 0 ts)) ∧
    (∀ i j (hi : i < ((putMany (initSys []) ts).heap).length)
        (hj : j < ((putMany (initSys []) ts).heap).length),
      (((putMany (initSys []) ts).heap).get ⟨j, hj⟩).task.priority <
          (((putMany (initSys []) ts).heap).get ⟨i, hi⟩).task.priority → i < j) ∧
    (∀ p : Int,
      ((putMany (initSys []) ts).heap).filter (fun e => e.task.priority = p) =
        (decorateFrom 0 ts).filter (fun e => e.task.priority = p)) := by
  have hhc := foldl_put_heap_counter ts (initSys []) (initSys []) rfl rfl
  have hspec := foldl_pushHeap_spec ts (initSys [])
  have hperm : ((putMany (initSys []) ts).heap).Perm (decorateFrom 0 ts) := by
    unfold putMany
    rw [hhc.1]
    simpa [initSys] using hspec.1
  have hsorted : List.Sorted entryLE ((putMany (initSys []) ts).heap) := by
    unfold putMany
    rw [hhc.1]
    exact foldl_pushHeap_sorted ts (initSys []) (by constructor)
  have hkey : ∀ e ∈ (putMany (initSys []) ts).heap, e.negPriority = -e.task.priority :=
    fun e he => (mem_decorateFrom (hperm.mem_iff.mp he)).2.1
  refine ⟨hperm, ?_, ?_⟩
  · intro i j hi hj hlt
    by_contra hcon
    have hji : j ≤ i := by omega
    rcases Nat.lt_or_ge j i with hj' | hj'
    · have hle : entryLE (((putMany (initSys []) ts).heap).get ⟨j, hj⟩)
          (((putMany (initSys []) ts).heap).get ⟨i, hi⟩) :=
        @List.Sorted.rel_get_of_lt QEntry entryLE _ hsorted ⟨j, hj⟩ ⟨i, hi⟩ hj'
      have e1 := hkey _ (List.get_mem ((putMany (initSys []) ts).heap) j hj)
      have e2 := hkey _ (List.get_mem ((putMany (initSys []) ts).heap) i hi)
      rcases hle with hlt' | ⟨heq, _⟩
      · rw [e1, e2] at hlt'
        omega
      · rw [e1, e2] at heq
        omega
    · have : j = i := by omega
      subst this
      exact absurd hlt (lt_irrefl _)
  · intro p
    have hpermf := hperm.filter (fun e => decide (e.task.priority = p))
    have houtpw : ((putMany (initSys []) ts).heap).Pairwise
        (fun a b => entryLE a b ∧ a.seq ≠ b.seq) := by
      refine List.Pairwise.and hsorted ?_
      have hdec : (decorateFrom 0 ts).Pairwise (fun a b : QEntry => a.seq ≠ b.seq) :=
        (decorateFrom_pairwise_seqLT 0 ts).imp (fun h => Nat.ne_of_lt h)
      exact (List.Perm.pairwise_iff (fun h => h.symm) hperm).mpr hdec
    have hsf : (((putMany (initSys []) ts).heap).filter
        (fun e => decide (e.task.priority = p))).Pairwise seqLT := by
      refine (houtpw.filter _).imp_of_mem ?_
      intro a b ha hb hab
      have hap : a.task.priority = p := by
        have := (List.mem_filter.mp ha).2
        simpa using this
      have hbp : b.task.priority = p := by
        have := (List.mem_filter.mp hb).2
        simpa using this
      have hka := hkey a (List.mem_filter.mp ha).1
      have hkb := hkey b (List.mem_filter.mp hb).1
      rcases hab.1 with hlt' | ⟨_, hle⟩
      · rw [hka, hkb, hap, hbp] at hlt'
        exact absurd hlt' (lt_irrefl _)
      · show a.seq < b.seq
        omega
    have hdf : ((decorateFrom 0 ts).filter
        (fun e => decide (e.task.priority = p))).Pairwise seqLT :=
      (decorateFrom_pairwise_seqLT 0 ts).filter _
    exact List.eq_of_perm_of_sorted hpermf hsf hdf

/-- Witness for C2: enqueueing a priority-0 task then a priority-5 task
dequeues the priority-5 task first, and the priority-0 subsequence
matches enqueue order. -/
theorem C2_priority_fifo_witness :
    (0 : Nat) < 1 ∧
    ((putMany (initSys [])
        [⟨"a".toList, "low".toList, 0, Status.pending, 0, 0, 3⟩,
         ⟨"b".toList, "high".toList, 5, Status.pending, 0, 0, 3⟩]).heap).filter
      (fun e => e.task.priority = 0) =
      (decorateFrom 0
        [⟨"a".toList, "low".toList, 0, Status.pending, 0, 0, 3⟩,
         ⟨"b".toList, "high".toList, 5, Status.pending, 0, 0, 3⟩]).filter
      (fun e => e.task.priority = 0) := by
  constructor
  · exact (C2_priority_fifo
      [⟨"a".toList, "low".toList, 0, Status.pending, 0, 0, 3⟩,
       ⟨"b".toList, "high".toList, 5, Status.pending, 0, 0, 3⟩]).2.1 0 1
      (by decide) (by decide) (by decide)
  · exact (C2_priority_fifo
      [⟨"a".toList, "low".toList, 0, Status.pending, 0, 0, 3⟩,
       ⟨"b".toList, "high".toList, 5, Status.pending, 0, 0, 3⟩]).2.2 0

/-! ## Claim C3 — `initialize` reloads exactly the open tasks -/

/-- C3: after `initialize()` the in-memory heap contains exactly the
store rows whose status is pending or running (as a multiset), every
loaded task has its status reset to pending, and the load order is
priority descending then `created_at` ascending (the query order, a
sorted permutation of the open rows). -/
theorem C3_initialize_load (tbl : List TaskRow) :
    (((initializeQueue tbl).heap.map QEntry.task).Perm
      ((tbl.filter rowOpen).map rowToTask)) ∧
    (∀ e ∈ (initializeQueue tbl).heap, e.task.status = Status.pending) ∧
    List.Sorted loadLE (load_open_tasks tbl) ∧
    ((load_open_tasks tbl).Perm (tbl.filter rowOpen)) := by
  have hfold : initializeQueue tbl =
      ((load_open_tasks tbl).map rowToTask).foldl pushHeap (initSys tbl) := by
    unfold initializeQueue load_persisted_tasks
    rw [List.foldl_map]
    rfl
  have hspec := foldl_pushHeap_spec ((load_open_tasks tbl).map rowToTask) (initSys tbl)
  have hperm : ((initializeQueue tbl).heap).Perm
      (decorateFrom 0 ((load_open_tasks tbl).map rowToTask)) := by
    rw [hfold]
    simpa [initSys] using hspec.1
  refine ⟨?_, ?_, List.sorted_insertionSort loadLE _, List.perm_insertionSort loadLE _⟩
  · have h1 := hperm.map QEntry.task
    rw [decorateFrom_map_task] at h1
    exact h1.trans ((List.perm_insertionSort loadLE _).map rowToTask)
  · intro e he
    have := (mem_decorateFrom (hperm.mem_iff.mp he)).2.2
    obtain ⟨r, _, hr⟩ := List.mem_map.mp this
    rw [← hr]
    rfl

/-- Witness for C3: from a table holding a running row, a pending row
and a completed row, exactly the two open rows are reloaded — the
running one first (priority 7), reset to pending. -/
theorem C3_initialize_load_witness :
    ((initializeQueue
        [{ task_id := "t1".toList, description := "d1".toList, priority := 0,
           status := Status.pending, created_at := 1, started_at := none,
           completed_at := none, worker_id := none, retry_count := 0,
           max_retries := 3, result := none, error_message := none },
         { task_id := "t2".toList, description := "d2".toList, priority := 7,
           status := Status.running, created_at := 2, started_at := some 2,
           completed_at := none, worker_id := some ("w".toList), retry_count := 1,
           max_retries := 3, result := none, error_message := none },
         { task_id := "t3".toList, description := "d3".toList, priority := 9,
           status := Status.completed, created_at := 3, started_at := some 3,
           completed_at := some 4, worker_id := none, retry_count := 0,
           max_retries := 3, result := none, error_message := none }]).heap.get
      ⟨0, by decide⟩).task.status = Status.pending :=
  (C3_initialize_load
    [{ task_id := "t1".toList, description := "d1".toList, priority := 0,
       status := Status.pending, created_at := 1, started_at := none,
       completed_at := none, worker_id := none, retry_count := 0,
       max_retries := 3, result := none, error_message := none },
     { task_id := "t2".toList, description := "d2".toList, priority := 7,
       status := Status.running, created_at := 2, started_at := some 2,
       completed_at := none, worker_id := some ("w".toList), retry_count := 1,
       max_retries := 3, result := none, error_message := none },
     { task_id := "t3".toList, description := "d3".toList, priority := 9,
       status := Status.completed, created_at := 3, started_at := some 3,
       completed_at := some 4, worker_id := none, retry_count := 0,
       max_retries := 3, result := none, error_message := none }]).2.1 _
    (List.get_mem _ 0 (by decide))

/-! ## Claim C4 — commit failure does not fail the task -/

/-- C4: for every task that passes generation, syntax check, and tests,
a failure of the commit step (`write_and_commit_code` returning
unsuccessful) does not fail the task: completion is still recorded,
`_process_task` returns success, no failure handling runs, and only a
warning event is recorded for the commit. -/
theorem C4_commit_failure (compiles : Str → Bool) (env : ProcEnv)
    (hg : env.genSuccess = true)
    (hne : stripS env.generatedCode ≠ [])
    (hs : (quick_syntax_check compiles env.generatedCode).1 = true)
    (ht : env.testsPassed = true)
    (hf : extract_code_blocks env.generatedCode ≠ [])
    (hc : env.commitSuccess = false) :
    process_task compiles env =
      { success := true, failureHandled := false, completedLogged := true,
        commitWarning := true, commitAttempted := true } := by
  unfold process_task
  rw [if_neg, if_neg, if_neg, if_pos hf]
  · rw [hc]
    rfl
  · rw [ht]
    simp
  · rw [hs]
    simp
  · rw [hg]
    simp [hne]

/-- Witness for C4: a concrete blob that generates, parses and tests
fine but whose commit fails is still a success with a warning. -/
theorem C4_commit_failure_witness :
    process_task (fun _ => true)
      { genSuccess := true, generatedCode := "x = 1".toList,
        testsPassed := true, commitSuccess := false } =
      { success := true, failureHandled := false, completedLogged := true,
        commitWarning := true, commitAttempted := true } :=
  C4_commit_failure (fun _ => true)
    { genSuccess := true, generatedCode := "x = 1".toList,
      testsPassed := true, commitSuccess := false }
    (by decide) (by decide) (by decide) (by decide) (by decide) (by decide)

/-! ## Claim C5 — test timeout surfaces as exit code 124 -/

/-- C5: whenever the test-run subprocess exceeds the configured
timeout, `_run_pytest` returns `success = false` and
`exit_code = 124` with the distinguishing `'Timeout'` error tag (other
failure paths report the subprocess's own exit code, or 1 for an
internal exception, and never the `'Timeout'` tag with code 124), so
the task is treated as failed and, while `retry_count < max_retries`,
is eligible for retry. -/
theorem C5_timeout_exit_code :
    (run_pytest PytestOutcome.timedOut).success = false ∧
    (run_pytest PytestOutcome.timedOut).exit_code = 124 ∧
    (run_pytest PytestOutcome.timedOut).errorMsg = some timeoutTag ∧
    (∀ rc out err, (run_pytest (PytestOutcome.completed rc out err)).exit_code = rc ∧
      (run_pytest (PytestOutcome.completed rc out err)).errorMsg ≠ some timeoutTag) ∧
    (∀ m, (run_pytest (PytestOutcome.raised m)).exit_code = 1) ∧
    (∀ s t, t.retry_count < t.max_retries → (handle_task_failure s t).2 = true) := by
  refine ⟨rfl, rfl, rfl, ?_, fun m => rfl, ?_⟩
  · intro rc out err
    exact ⟨rfl, by simp [run_pytest]⟩
  · intro s t h
    have hnot : ¬ t.max_retries ≤ t.retry_count := by omega
    simp [handle_task_failure, h, retry_task, hnot]

/-- Witness for C5: the retry-eligibility conjunct at a concrete state
and task. -/
theorem C5_timeout_exit_code_witness :
    (handle_task_failure (initSys []) ⟨"a".toList, "d".toList, 1, Status.failed, 0, 1, 3⟩).2 =
      true :=
  C5_timeout_exit_code.2.2.2.2.2 (initSys [])
    ⟨"a".toList, "d".toList, 1, Status.failed, 0, 1, 3⟩ (by decide)

/-! ## Claim C6 — follow-up tasks and `CREATE_FOLLOWUP_TASKS` -/

/-- C6, counterexample: the claim says a follow-up is enqueued *only
when* `CREATE_FOLLOWUP_TASKS` is enabled, but the reviewer never
consults that flag: with the flag disabled and three critical findings,
a follow-up task is still enqueued. -/
theorem C6_counterexample :
    (create_followup_tasks { defaultConfig with CREATE_FOLLOWUP_TASKS := false }
        ("f1".toList) (initSys []) ("t1".toList)
        ⟨["i1".toList, "i2".toList, "i3".toList], []⟩).2 = some ("f1".toList) ∧
    ({ defaultConfig with CREATE_FOLLOWUP_TASKS := false } : Config).CREATE_FOLLOWUP_TASKS =
      false := by
  constructor
  · rfl
  · rfl

/-- C6, amended: for every review whose `syntax_issues` plus
`logic_errors` number at least 3, a follow-up task is enqueued at
priority 2 — for *every* configuration, i.e. regardless of
`CREATE_FOLLOWUP_TASKS`, which the code never reads — and when the
combined count is below 3 no follow-up task is created. -/
theorem C6_followup_threshold (cfg : Config) (fresh : Str) (s : SysState)
    (tid : Str) (r : ReviewResults) :
    (3 ≤ (r.syntax_issues ++ r.logic_errors).length →
      (create_followup_tasks cfg fresh s tid r).2 = some fresh ∧
      (Task.from_text cfg fresh s.now
          (followupDescription tid (r.syntax_issues ++ r.logic_errors)) 2).priority = 2 ∧
      ((create_followup_tasks cfg fresh s tid r).1.heap).Perm
        (⟨-2, s.counter,
            Task.from_text cfg fresh s.now
              (followupDescription tid (r.syntax_issues ++ r.logic_errors)) 2⟩ :: s.heap)) ∧
    ((r.syntax_issues ++ r.logic_errors).length < 3 →
      create_followup_tasks cfg fresh s tid r = (s, none)) := by
  constructor
  · intro h
    simp only [create_followup_tasks, if_pos h, put, pushHeap]
    refine ⟨trivial, rfl, ?_⟩
    exact List.perm_orderedInsert _ _ _
  · intro h
    have hnot : ¬ 3 ≤ (r.syntax_issues ++ r.logic_errors).length := by omega
    simp only [create_followup_tasks, if_neg hnot]

/-- Witness for C6 (amended): three critical findings produce a
follow-up, two do not. -/
theorem C6_followup_threshold_witness :
    (create_followup_tasks defaultConfig ("f1".toList) (initSys []) ("t1".toList)
       ⟨["i1".toList, "i2".toList], ["i3".toList]⟩).2 = some ("f1".toList) ∧
    (create_followup_tasks defaultConfig ("f1".toList) (initSys []) ("t1".toList)
       ⟨["i1".toList], ["i3".toList]⟩).2 = none := by
  constructor
  · exact ((C6_followup_threshold defaultConfig ("f1".toList) (initSys []) ("t1".toList)
      ⟨["i1".toList, "i2".toList], ["i3".toList]⟩).1 (by decide)).1
  · rw [(C6_followup_threshold defaultConfig ("f1".toList) (initSys []) ("t1".toList)
      ⟨["i1".toList], ["i3".toList]⟩).2 (by decide)]

/-! ## Claim C7 — major-task grace period -/

/-- C7: a completed task whose description contains a major-task
keyword and whose completion lies strictly inside the 7-day grace
period is skipped by the primary reviewer with
`major_tasks_respected` incremented — never reviewed inside the grace
period; once the grace period has elapsed (in particular one day past
the threshold), the task is reviewed. -/
theorem C7_major_task_grace (stats : ReviewStats) (desc : Str) (t : Int) :
    ((major_indicators.any (fun k => hasSub k (lowerS desc))) = true →
      t < major_task_grace_period →
        primary_review_step stats desc t =
          ({ stats with major_tasks_respected := stats.major_tasks_respected + 1 },
            false)) ∧
    (major_task_grace_period ≤ t →
      primary_review_step stats desc t =
        ({ stats with tasks_reviewed := stats.tasks_reviewed + 1 }, true)) := by
  constructor
  · intro hk ht
    have : should_respect_major_task desc t = true := by
      simp [should_respect_major_task, hk, ht]
    simp [primary_review_step, this]
  · intro ht
    have : should_respect_major_task desc t = false := by
      simp only [should_respect_major_task]
      simp only [decide_eq_false_iff_not]
      intro hcontra
      omega
    simp [primary_review_step, this]

/-- Witness for C7: a description containing `refactor` completed one
hour ago is respected; the same description eight days
(`7*24*3600 + 86400` seconds) after completion is reviewed. -/
theorem C7_major_task_grace_witness :
    primary_review_step ⟨0, 0⟩ ("Refactor the parser".toList) 3600 = (⟨0, 1⟩, false) ∧
    primary_review_step ⟨0, 0⟩ ("Refactor the parser".toList) 691200 = (⟨1, 0⟩, true) := by
  constructor
  · exact (C7_major_task_grace ⟨0, 0⟩ ("Refactor the parser".toList) 3600).1
      (by decide) (by decide)
  · exact (C7_major_task_grace ⟨0, 0⟩ ("Refactor the parser".toList) 691200).2 (by decide)

/-! ## Claim C9 — `log_task_created` rewrites the whole row -/

/-- C9: `log_task_created` — invoked by every queue `put`, including
retries — performs an `INSERT OR REPLACE`: when the `task_id` is
already present, the whole row is rewritten, and afterwards it holds
status pending, `retry_count` 0, `max_retries` 3, the fresh
`created_at`, and NULL `started_at`, `completed_at`, `worker_id`,
`result` and `error_message`; nothing beyond the supplied description
and priority is preserved. -/
theorem C9_insert_or_replace (tbl : List TaskRow) (tid desc : Str) (prio : Int)
    (now : Nat) (_hp : ∃ r ∈ tbl, r.task_id = tid) :
    (findRow (log_task_created tbl tid desc prio now) tid =
      some { task_id := tid, description := desc, priority := prio,
             status := Status.pending, created_at := now, started_at := none,
             completed_at := none, worker_id := none, retry_count := 0,
             max_retries := 3, result := none, error_message := none }) ∧
    (∀ s t, (put s t).table =
      log_task_created s.table t.task_id t.description t.priority s.now) ∧
    (∀ s t, t.retry_count < t.max_retries →
      (retry_task s t).state.table =
        log_task_created s.table t.task_id t.description (max 0 (t.priority - 1)) s.now) := by
  refine ⟨?_, fun s t => rfl, ?_⟩
  · unfold findRow log_task_created
    rw [List.find?_append]
    have hleft : (tbl.filter (fun r => r.task_id ≠ tid)).find?
        (fun r => r.task_id = tid) = none := by
      rw [List.find?_eq_none]
      intro x hx
      have := (List.mem_filter.mp hx).2
      simp only [decide_eq_true_eq] at this ⊢
      exact this
    rw [hleft]
    simp
  · intro s t h
    have hnot : ¬ t.max_retries ≤ t.retry_count := by omega
    simp only [retry_task, if_neg hnot, put, pushHeap]

/-- Witness for C9: replacing a completed, retried, error-carrying row
resets every field except the supplied description and priority. -/
theorem C9_insert_or_replace_witness :
    findRow
      (log_task_created
        [{ task_id := "t1".toList, description := "old".toList, priority := 5,
           status := Status.completed, created_at := 11, started_at := some 12,
           completed_at := some 13, worker_id := some ("w1".toList),
           retry_count := 2, max_retries := 9, result := some ("r".toList),
           error_message := some ("e".toList) }]
        ("t1".toList) ("new".toList) 4 99)
      ("t1".toList) =
      some { task_id := "t1".toList, description := "new".toList, priority := 4,
             status := Status.pending, created_at := 99, started_at := none,
             completed_at := none, worker_id := none, retry_count := 0,
             max_retries := 3, result := none, error_message := none } :=
  (C9_insert_or_replace
    [{ task_id := "t1".toList, description := "old".toList, priority := 5,
       status := Status.completed, created_at := 11, started_at := some 12,
       completed_at := some 13, worker_id := some ("w1".toList),
       retry_count := 2, max_retries := 9, result := some ("r".toList),
       error_message := some ("e".toList) }]
    ("t1".toList) ("new".toList) 4 99
    ⟨_, List.mem_singleton.mpr rfl, rfl⟩).1

/-! ## Claim C10 — syntax check passes vacuously without Python files -/

/-- C10: for every generated blob whose extracted code blocks contain
at least one file but no non-empty file named `*.py`,
`quick_syntax_check` returns overall valid with `files_checked = 0`:
non-Python and empty files are never syntax-checked, whatever the
compiler oracle says. -/
theorem C10_vacuous_syntax_check (compiles : Str → Bool) (text : Str)
    (hne : extract_code_blocks text ≠ [])
    (hno : ∀ fc ∈ extract_code_blocks text,
      ¬ (endsWithS fc.1 (".py".toList) = true ∧ stripS fc.2 ≠ [])) :
    quick_syntax_check compiles text = (true, 0) := by
  unfold quick_syntax_check
  rw [if_neg (by simpa using hne)]
  have hfilter : (extract_code_blocks text).filter
      (fun fc => endsWithS fc.1 (".py".toList) ∧ stripS fc.2 ≠ []) = [] := by
    rw [List.filter_eq_nil_iff]
    intro fc hfc
    have := hno fc hfc
    simpa using this
  rw [hfilter]
  rfl

/-- Witness for C10: a blob extracting a single non-Python file passes
the syntax check with zero files checked even under an oracle that
rejects everything. -/
theorem C10_vacuous_syntax_check_witness :
    quick_syntax_check (fun _ => false) ("# File: notes.txt\nhello world".toList) =
      (true, 0) :=
  C10_vacuous_syntax_check (fun _ => false) ("# File: notes.txt\nhello world".toList)
    (by decide) (by decide)

/-! ## String lemmas (for C8) -/

/-- Splitting never returns an empty list of pieces. -/
theorem splitOnChar_ne_nil (c : Char) (s : Str) : splitOnChar c s ≠ [] := by
  cases s with
  | nil => simp [splitOnChar]
  | cons x xs =>
    unfold splitOnChar
    by_cases h : x = c
    · simp [h]
    · simp only [if_neg h]
      cases hs : splitOnChar c xs <;> simp

/-- The first piece of a split is a prefix of the string. -/
theorem splitOnChar_head_prefix (c : Char) :
    ∀ (s : Str) h t, splitOnChar c s = h :: t → h <+: s := by
  intro s
  induction s with
  | nil =>
    intro h t hs
    unfold splitOnChar at hs
    injection hs with h1 _
    rw [← h1]
  | cons x xs ih =>
    intro h t hs
    unfold splitOnChar at hs
    by_cases hx : x = c
    · rw [if_pos hx] at hs
      injection hs with h1 _
      rw [← h1]
      exact List.nil_prefix
    · rw [if_neg hx] at hs
      cases hsp : splitOnChar c xs with
      | nil => exact absurd hsp (splitOnChar_ne_nil c xs)
      | cons h' t' =>
        rw [hsp] at hs
        injection hs with h1 _
        obtain ⟨k, hk⟩ := ih h' t' hsp
        exact ⟨k, by rw [← h1, List.cons_append, hk]⟩

/-- Every piece of a split is an infix of the string. -/
theorem mem_splitOnChar_infix (c : Char) :
    ∀ (s : Str) p, p ∈ splitOnChar c s → p <:+: s := by
  intro s
  induction s with
  | nil =>
    intro p hp
    simp [splitOnChar] at hp
    rw [hp]
  | cons x xs ih =>
    intro p hp
    unfold splitOnChar at hp
    by_cases hx : x = c
    · rw [if_pos hx] at hp
      rcases List.mem_cons.mp hp with rfl | hp'
      · exact List.nil_infix
      · exact List.infix_cons (ih p hp')
    · rw [if_neg hx] at hp
      cases hsp : splitOnChar c xs with
      | nil => exact absurd hsp (splitOnChar_ne_nil c xs)
      | cons h' t' =>
        rw [hsp] at hp
        rcases List.mem_cons.mp hp with rfl | hp'
        · obtain ⟨k, hk⟩ := splitOnChar_head_prefix c xs h' t' hsp
          exact List.IsPrefix.isInfix ⟨k, by rw [List.cons_append, hk]⟩
        · have : p ∈ splitOnChar c xs := by rw [hsp]; exact List.mem_cons_of_mem _ hp'
          exact List.infix_cons (ih p this)

/-- Joining a split with the same separator restores the string. -/
theorem joinWith_splitOnChar (c : Char) : ∀ s : Str, joinWith c (splitOnChar c s) = s := by
  intro s
  induction s with
  | nil => rfl
  | cons x xs ih =>
    unfold splitOnChar
    by_cases hx : x = c
    · rw [if_pos hx]
      cases hsp : splitOnChar c xs with
      | nil => exact absurd hsp (splitOnChar_ne_nil c xs)
      | cons h' t' =>
        rw [hsp] at ih
        show joinWith c ([] :: h' :: t') = x :: xs
        rw [hx]
        show [] ++ c :: joinWith c (h' :: t') = c :: xs
        rw [List.nil_append, ih]
    · rw [if_neg hx]
      cases hsp : splitOnChar c xs with
      | nil => exact absurd hsp (splitOnChar_ne_nil c xs)
      | cons h' t' =>
        rw [hsp] at ih
        cases t' with
        | nil =>
          show x :: h' = x :: xs
          rw [show joinWith c [h'] = h' from rfl] at ih
          rw [ih]
        | cons q r =>
          show (x :: h') ++ c :: joinWith c (q :: r) = x :: xs
          rw [List.cons_append, ← ih]
          rfl

/-- Correctness of the boolean front test. -/
theorem startsWithS_iff : ∀ p s : Str, startsWithS p s = true ↔ p <+: s := by
  intro p
  induction p with
  | nil =>
    intro s
    constructor
    · intro _
      exact List.nil_prefix
    · intro _
      rfl
  | cons a as ih =>
    intro s
    cases s with
    | nil =>
      constructor
      · intro h
        cases h
      · intro h
        exact absurd (List.prefix_nil.mp h) (by simp)
    | cons b bs =>
      unfold startsWithS
      by_cases hab : a = b
      · rw [if_pos hab, hab]
        rw [ih bs]
        constructor
        · intro h
          exact List.cons_prefix_cons.mpr ⟨rfl, h⟩
        · intro h
          exact (List.cons_prefix_cons.mp h).2
      · rw [if_neg hab]
        constructor
        · intro h
          cases h
        · intro h
          exact absurd (List.cons_prefix_cons.mp h).1 hab

/-- A successful first-occurrence search decomposes the string. -/
theorem firstSplit_eq (sep : Str) :
    ∀ s b a, firstSplit sep s = some (b, a) → s = b ++ sep ++ a := by
  intro s
  induction s with
  | nil =>
    intro b a h
    unfold firstSplit at h
    by_cases hsep : sep = []
    · rw [if_pos hsep] at h
      injection h with h'
      injection h' with hb ha
      rw [← hb, ← ha, hsep]
      rfl
    · rw [if_neg hsep] at h
      cases h
  | cons c cs ih =>
    intro b a h
    unfold firstSplit at h
    by_cases hpre : startsWithS sep (c :: cs) = true
    · rw [if_pos hpre] at h
      injection h with h'
      injection h' with hb ha
      obtain ⟨t, ht⟩ := (startsWithS_iff _ _).mp hpre
      rw [← hb, ← ha, ← ht, List.nil_append]
      rw [List.drop_left' rfl]
    · rw [if_neg hpre] at h
      cases hfs : firstSplit sep cs with
      | none =>
        rw [hfs] at h
        cases h
      | some ba =>
        obtain ⟨b', a'⟩ := ba
        rw [hfs] at h
        injection h with h'
        injection h' with hb ha
        rw [← hb, ← ha]
        rw [ih b' a' hfs]
        rfl

/-- A failed first-occurrence search means the pattern is not an
infix. -/
theorem firstSplit_none (sep : Str) :
    ∀ s, firstSplit sep s = none → ¬ sep <:+: s := by
  intro s
  induction s with
  | nil =>
    intro h hinf
    unfold firstSplit at h
    by_cases hsep : sep = []
    · rw [if_pos hsep] at h
      cases h
    · exact hsep (List.infix_nil.mp hinf)
  | cons c cs ih =>
    intro h hinf
    unfold firstSplit at h
    by_cases hpre : startsWithS sep (c :: cs) = true
    · rw [if_pos hpre] at h
      cases h
    · rw [if_neg hpre] at h
      cases hfs : firstSplit sep cs with
      | some ba =>
        rw [hfs] at h
        cases h
      | none =>
        rcases List.infix_cons_iff.mp hinf with hp | hin
        · exact hpre ((startsWithS_iff _ _).mpr hp)
        · exact ih hfs hin

/-- The `in` test is exactly the infix relation. -/
theorem hasSub_iff (sep s : Str) : hasSub sep s = true ↔ sep <:+: s := by
  unfold hasSub
  constructor
  · intro h
    cases hfs : firstSplit sep s with
    | none =>
      rw [hfs] at h
      cases h
    | some ba =>
      obtain ⟨b, a⟩ := ba
      exact ⟨b, a, (firstSplit_eq sep s b a hfs).symm⟩
  · intro h
    cases hfs : firstSplit sep s with
    | some ba => rfl
    | none => exact absurd h (firstSplit_none sep s hfs)

/-- The negative form of `hasSub_iff`. -/
theorem hasSub_false_iff (sep s : Str) : hasSub sep s = false ↔ ¬ sep <:+: s := by
  rw [← hasSub_iff]
  cases hasSub sep s <;> simp

/-- Nothing before the first occurrence of the pattern contains the
pattern. -/
theorem firstSplit_not_contain (sep : Str) (hsep : sep ≠ []) :
    ∀ s b a, firstSplit sep s = some (b, a) → ¬ sep <:+: b := by
  intro s
  induction s with
  | nil =>
    intro b a h
    unfold firstSplit at h
    rw [if_neg hsep] at h
    cases h
  | cons c cs ih =>
    intro b a h
    unfold firstSplit at h
    by_cases hpre : startsWithS sep (c :: cs) = true
    · rw [if_pos hpre] at h
      injection h with h'
      injection h' with hb _
      rw [← hb]
      intro hinf
      exact hsep (List.infix_nil.mp hinf)
    · rw [if_neg hpre] at h
      cases hfs : firstSplit sep cs with
      | none =>
        rw [hfs] at h
        cases h
      | some ba =>
        obtain ⟨b', a'⟩ := ba
        rw [hfs] at h
        injection h with h'
        injection h' with hb _
        rw [← hb]
        intro hinf
        rcases List.infix_cons_iff.mp hinf with hp | hin
        · have hcs := firstSplit_eq sep cs b' a' hfs
          have hpc : (c :: b') <+: (c :: cs) := by
            refine ⟨sep ++ a', ?_⟩
            rw [hcs]
            simp
          exact hpre ((startsWithS_iff _ _).mpr (hp.trans hpc))
        · exact ih b' a' hfs hin

/-- No piece of a (sufficiently fuelled) multi-character split contains
the separator. -/
theorem splitOnSeqFuel_not_contain (sep : Str) (hsep : sep ≠ []) :
    ∀ fuel s, s.length < fuel → ∀ p ∈ splitOnSeqFuel sep fuel s, ¬ sep <:+: p := by
  intro fuel
  induction fuel with
  | zero =>
    intro s h
    omega
  | succ n ih =>
    intro s hlen p hp
    unfold splitOnSeqFuel at hp
    cases hfs : firstSplit sep s with
    | none =>
      rw [hfs] at hp
      rw [List.mem_singleton.mp hp]
      exact firstSplit_none sep s hfs
    | some ba =>
      obtain ⟨b, a⟩ := ba
      rw [hfs] at hp
      rcases List.mem_cons.mp hp with rfl | hp'
      · exact firstSplit_not_contain sep hsep s p a hfs
      · have hsplit := firstSplit_eq sep s b a hfs
        have hsl : 0 < sep.length := List.length_pos.mpr hsep
        have hL : s.length = b.length + sep.length + a.length := by
          rw [hsplit]
          simp [List.length_append]
          omega
        exact ih a (by omega) p hp'

/-- Every piece of a multi-character split is an infix of the string. -/
theorem splitOnSeqFuel_infix (sep : Str) :
    ∀ fuel s, ∀ p ∈ splitOnSeqFuel sep fuel s, p <:+: s := by
  intro fuel
  induction fuel with
  | zero =>
    intro s p hp
    rw [List.mem_singleton.mp hp]
  | succ n ih =>
    intro s p hp
    unfold splitOnSeqFuel at hp
    cases hfs : firstSplit sep s with
    | none =>
      rw [hfs] at hp
      rw [List.mem_singleton.mp hp]
    | some ba =>
      obtain ⟨b, a⟩ := ba
      rw [hfs] at hp
      have hsplit := firstSplit_eq sep s b a hfs
      rcases List.mem_cons.mp hp with rfl | hp'
      · refine List.IsPrefix.isInfix ⟨sep ++ a, ?_⟩
        rw [hsplit]
        simp
      · have ha : a <:+ s := ⟨b ++ sep, by rw [hsplit]⟩
        exact (ih a p hp').trans ha.isInfix

/-- Specialization of `splitOnSeqFuel_not_contain` to `splitOnSeq`. -/
theorem mem_splitOnSeq_not_contain (sep s : Str) (hsep : sep ≠ []) :
    ∀ p ∈ splitOnSeq sep s, ¬ sep <:+: p :=
  fun p hp =>
    splitOnSeqFuel_not_contain sep hsep (s.length + 1) s (Nat.lt_succ_self _) p hp

/-- Specialization of `splitOnSeqFuel_infix` to `splitOnSeq`. -/
theorem mem_splitOnSeq_infix (sep s : Str) : ∀ p ∈ splitOnSeq sep s, p <:+: s :=
  fun p hp => splitOnSeqFuel_infix sep (s.length + 1) s p hp

/-- Auxiliary bounded form of `mem_oddIdx`. -/
theorem mem_oddIdx_aux {α : Type} :
    ∀ (n : Nat) (l : List α), l.length ≤ n → ∀ p, p ∈ oddIdx l → p ∈ l := by
  intro n
  induction n with
  | zero =>
    intro l hl p hp
    rw [List.length_eq_zero.mp (Nat.le_zero.mp hl)] at hp
    cases hp
  | succ n ih =>
    intro l hl p hp
    match l with
    | [] => cases hp
    | [a] => cases hp
    | a :: b :: rest =>
      unfold oddIdx at hp
      rcases List.mem_cons.mp hp with rfl | hp'
      · exact List.mem_cons_of_mem _ (List.mem_cons_self _ _)
      · have hrest : p ∈ rest := by
          refine ih rest ?_ p hp'
          simp at hl
          omega
        exact List.mem_cons_of_mem _ (List.mem_cons_of_mem _ hrest)

/-- Odd-indexed elements are elements. -/
theorem mem_oddIdx {α : Type} (l : List α) (p : α) (hp : p ∈ oddIdx l) : p ∈ l :=
  mem_oddIdx_aux l.length l (Nat.le_refl _) p hp

/-- Left-stripping yields a suffix. -/
theorem lstripS_suffix (s : Str) : lstripS s <:+ s :=
  List.dropWhile_suffix pySpace

/-- Right-stripping yields a prefix. -/
theorem rstripS_front (s : Str) : rstripS s <+: s := by
  unfold rstripS
  obtain ⟨t, ht⟩ :=
    (List.dropWhile_suffix pySpace : s.reverse.dropWhile pySpace <:+ s.reverse)
  refine ⟨t.reverse, ?_⟩
  rw [← List.reverse_append, ht, List.reverse_reverse]

/-- Stripping yields an infix. -/
theorem stripS_within (s : Str) : stripS s <:+: s :=
  (List.IsPrefix.isInfix (rstripS_front (lstripS s))).trans
    (List.IsSuffix.isInfix (lstripS_suffix s))

/-- Right-stripping is idempotent. -/
theorem rstripS_idem (s : Str) : rstripS (rstripS s) = rstripS s := by
  unfold rstripS
  rw [List.reverse_reverse, List.dropWhile_idempotent]

/-- The head surviving a `dropWhile` fails the predicate. -/
theorem dropWhile_head_false {α : Type} (p : α → Bool) :
    ∀ (l : List α) a t, l.dropWhile p = a :: t → p a = false := by
  intro l
  induction l with
  | nil =>
    intro a t h
    cases h
  | cons x xs ih =>
    intro a t h
    rw [List.dropWhile_cons] at h
    by_cases hx : p x = true
    · rw [if_pos hx] at h
      exact ih a t h
    · rw [if_neg hx] at h
      injection h with h1 _
      rw [← h1]
      exact Bool.not_eq_true _ |>.mp hx

/-- Left-stripping an already left-stripped-then-right-stripped string
does nothing. -/
theorem lstripS_rstripS_lstripS (s : Str) :
    lstripS (rstripS (lstripS s)) = rstripS (lstripS s) := by
  cases hr : rstripS (lstripS s) with
  | nil => rfl
  | cons a t =>
    have hpre := rstripS_front (lstripS s)
    rw [hr] at hpre
    obtain ⟨k, hk⟩ := hpre
    have hl : lstripS s = a :: (t ++ k) := by
      rw [← hk]
      rfl
    have ha : pySpace a = false := dropWhile_head_false pySpace s a (t ++ k) hl
    show (a :: t).dropWhile pySpace = a :: t
    rw [List.dropWhile_cons, if_neg (by rw [ha]; simp)]

/-- Stripping is idempotent. -/
theorem stripS_idem (s : Str) : stripS (stripS s) = stripS s := by
  show rstripS (lstripS (rstripS (lstripS s))) = rstripS (lstripS s)
  rw [lstripS_rstripS_lstripS, rstripS_idem]

/-- A pattern avoiding a character and lying at the front of
`u ++ c :: v` lies at the front of `u`. -/
theorem prefix_append_cons_of_not_mem {c : Char} :
    ∀ {sep u v : Str}, c ∉ sep → sep <+: u ++ c :: v → sep <+: u := by
  intro sep
  induction sep with
  | nil =>
    intro u v _ _
    exact List.nil_prefix
  | cons a as ih =>
    intro u v hc h
    cases u with
    | nil =>
      obtain ⟨t, ht⟩ := h
      rw [List.cons_append] at ht
      injection ht with h1 _
      exact absurd (h1 ▸ List.mem_cons_self a as) hc
    | cons b u' =>
      obtain ⟨t, ht⟩ := h
      rw [List.cons_append, List.cons_append] at ht
      injection ht with h1 h2
      have has : as <+: u' ++ c :: v := ⟨t, h2⟩
      obtain ⟨t', ht'⟩ := ih (fun hm => hc (List.mem_cons_of_mem _ hm)) has
      refine ⟨t', ?_⟩
      rw [List.cons_append, ht', h1]

/-- An occurrence of a pattern avoiding `c` inside `u ++ c :: v` lies
entirely inside `u` or entirely inside `v`. -/
theorem infix_append_cons_of_not_mem {sep : Str} {c : Char}
    (hsep : sep ≠ []) (hc : c ∉ sep) :
    ∀ {u v : Str}, sep <:+: u ++ c :: v → sep <:+: u ∨ sep <:+: v := by
  intro u
  induction u with
  | nil =>
    intro v h
    rw [List.nil_append] at h
    rcases List.infix_cons_iff.mp h with hp | hin
    · cases sep with
      | nil => exact absurd rfl hsep
      | cons a as =>
        obtain ⟨t, ht⟩ := hp
        rw [List.cons_append] at ht
        injection ht with h1 _
        exact absurd (h1 ▸ List.mem_cons_self a as) hc
    · exact Or.inr hin
  | cons b u' ih =>
    intro v h
    rw [List.cons_append] at h
    rcases List.infix_cons_iff.mp h with hp | hin
    · left
      have : sep <+: (b :: u') ++ c :: v := by
        rw [List.cons_append]
        exact hp
      exact List.IsPrefix.isInfix (prefix_append_cons_of_not_mem hc this)
    · rcases ih hin with h1 | h2
      · exact Or.inl (List.infix_cons h1)
      · exact Or.inr h2

/-- Joining pieces that do not contain a separator-free pattern with a
character the pattern avoids cannot create the pattern. -/
theorem joinWith_not_contain {sep : Str} {c : Char}
    (hsep : sep ≠ []) (hc : c ∉ sep) :
    ∀ ps : List Str, (∀ p ∈ ps, ¬ sep <:+: p) → ¬ sep <:+: joinWith c ps := by
  intro ps
  induction ps with
  | nil =>
    intro _ hinf
    exact hsep (List.infix_nil.mp hinf)
  | cons p ps ih =>
    intro hall hinf
    cases ps with
    | nil => exact hall p (List.mem_singleton.mpr rfl) hinf
    | cons q r =>
      rw [show joinWith c (p :: q :: r) = p ++ c :: joinWith c (q :: r) from rfl] at hinf
      rcases infix_append_cons_of_not_mem hsep hc hinf with h1 | h2
      · exact hall p (List.mem_cons_self _ _) h1
      · exact ih (fun x hx => hall x (List.mem_cons_of_mem _ hx)) h2

/-- Language-tag stripping yields an infix of the piece. -/
theorem stripLangTag_within (p : Str) : stripLangTag p <:+: p := by
  cases hsp : splitOnChar '\n' p with
  | nil => exact absurd hsp (splitOnChar_ne_nil _ _)
  | cons l0 rest =>
    have hj : joinWith '\n' (l0 :: rest) = p := by
      rw [← hsp]
      exact joinWith_splitOnChar _ _
    have hdef : stripLangTag p = joinWith '\n'
        (if stripS l0 = "python".toList ∨ stripS l0 = "py".toList ∨ stripS l0 = []
         then rest else l0 :: rest) := by
      unfold stripLangTag
      rw [hsp]
    rw [hdef]
    by_cases hcond : stripS l0 = "python".toList ∨ stripS l0 = "py".toList ∨ stripS l0 = []
    · rw [if_pos hcond]
      cases rest with
      | nil => exact List.nil_infix
      | cons q r =>
        refine List.IsSuffix.isInfix ⟨l0 ++ ['\n'], ?_⟩
        rw [← hj]
        show l0 ++ ['\n'] ++ joinWith '\n' (q :: r) = l0 ++ '\n' :: joinWith '\n' (q :: r)
        simp

    · rw [if_neg hcond, hj]

/-! ## Extractor lemmas (for C8) -/

/-- The markdown fallback never leaves a fence in `clean_code`. -/
theorem cleanFallback_no_ticks (text : Str) : ¬ ticks <:+: cleanFallback text := by
  unfold cleanFallback
  by_cases ht : hasSub ticks text = true
  · rw [if_pos ht]
    refine joinWith_not_contain (by decide) (by decide) _ ?_
    intro p hp hinf
    obtain ⟨q, hq, hpq⟩ := List.mem_map.mp hp
    have hq' := mem_oddIdx _ _ hq
    rw [← hpq] at hinf
    exact mem_splitOnSeq_not_contain ticks text (by decide) q hq'
      (hinf.trans (stripLangTag_within q))
  · rw [if_neg ht]
    exact (hasSub_false_iff _ _).mp (Bool.not_eq_true _ |>.mp ht)

/-- The markdown fallback cannot create an occurrence of a
newline-free pattern that the blob does not contain. -/
theorem cleanFallback_marker_free {m : Str} (hm : m ≠ []) (hnl : '\n' ∉ m)
    (text : Str) (h : ¬ m <:+: text) : ¬ m <:+: cleanFallback text := by
  unfold cleanFallback
  by_cases ht : hasSub ticks text = true
  · rw [if_pos ht]
    refine joinWith_not_contain hm hnl _ ?_
    intro p hp hinf
    obtain ⟨q, hq, hpq⟩ := List.mem_map.mp hp
    have hq' := mem_oddIdx _ _ hq
    have hqinf := mem_splitOnSeq_infix ticks text q hq'
    rw [← hpq] at hinf
    exact h ((hinf.trans (stripLangTag_within q)).trans hqinf)
  · rw [if_neg ht]
    exact h

/-- On marker-free lines the extraction loop leaves the block map empty
and never names a file. -/
theorem foldl_processLine_no_marker :
    ∀ (lines : List Str) (st : ExtState),
      st.blocks = [] → st.currentFile = [] →
      (∀ line ∈ lines,
        hasSub fileMarkerA line = false ∧ hasSub fileMarkerB line = false) →
      (lines.foldl processLine st).blocks = [] ∧
        (lines.foldl processLine st).currentFile = [] := by
  intro lines
  induction lines with
  | nil => exact fun st h1 h2 _ => ⟨h1, h2⟩
  | cons line rest ih =>
    intro st h1 h2 hall
    have hline := hall line (List.mem_cons_self _ _)
    have hstep : (processLine st line).blocks = [] ∧
        (processLine st line).currentFile = [] := by
      have hnm : ¬ (hasSub fileMarkerA line = true ∨ hasSub fileMarkerB line = true) := by
        rw [hline.1, hline.2]
        simp
      unfold processLine
      rw [if_neg hnm]
      by_cases hf : startsWithS ticks (stripS line) = true
      · rw [if_pos hf]
        by_cases he : stripS line = ticks
        · rw [if_pos he]
          exact ⟨h1, h2⟩
        · rw [if_neg he]
          by_cases hp : hasSub ("python".toList) (lowerS line) = true
          · rw [if_pos hp]
            exact ⟨h1, h2⟩
          · rw [if_neg hp]
            exact ⟨h1, h2⟩
      · rw [if_neg hf]
        by_cases hcol : st.inCodeBlock = true ∨
            (st.currentFile ≠ [] ∧ ¬ startsWithS ("#".toList) line = true)
        · rw [if_pos hcol]
          exact ⟨h1, h2⟩
        · rw [if_neg hcol]
          exact ⟨h1, h2⟩
    exact ih (processLine st line) hstep.1 hstep.2
      (fun l hl => hall l (List.mem_cons_of_mem _ hl))

/-- On marker-free blobs the extractor always takes the fallback
branch. -/
theorem extract_no_marker (text : Str)
    (hA : hasSub fileMarkerA text = false) (hB : hasSub fileMarkerB text = false) :
    extract_code_blocks text =
      if stripS text = [] then []
      else [("main.py".toList, stripS (cleanFallback text))] := by
  have hlines : ∀ line ∈ splitOnChar '\n' text,
      hasSub fileMarkerA line = false ∧ hasSub fileMarkerB line = false := by
    intro line hl
    have hinf := mem_splitOnChar_infix '\n' text line hl
    constructor
    · rw [hasSub_false_iff]
      intro hmi
      exact (hasSub_false_iff _ _).mp hA (hmi.trans hinf)
    · rw [hasSub_false_iff]
      intro hmi
      exact (hasSub_false_iff _ _).mp hB (hmi.trans hinf)
  have hfold := foldl_processLine_no_marker (splitOnChar '\n' text)
    ⟨[], [], [], false⟩ rfl rfl hlines
  have hsave : saveCurrent ((splitOnChar '\n' text).foldl processLine
      ⟨[], [], [], false⟩) = [] := by
    unfold saveCurrent
    rw [if_neg]
    · exact hfold.1
    · rw [hfold.2]
      simp
  show (if saveCurrent ((splitOnChar '\n' text).foldl processLine ⟨[], [], [], false⟩) = [] ∧
          stripS text ≠ []
        then [("main.py".toList, stripS (cleanFallback text))]
        else saveCurrent ((splitOnChar '\n' text).foldl processLine ⟨[], [], [], false⟩)) = _
  rw [hsave]
  by_cases hstrip : stripS text = []
  · rw [if_neg (by simp [hstrip]), if_pos hstrip]
  · rw [if_pos ⟨rfl, hstrip⟩, if_neg hstrip]

/-- Extraction of a stripped, fence-free, marker-free, non-empty string
is a single `main.py` block holding the string itself. -/
theorem extract_plain (v : Str) (hv : v ≠ []) (hs : stripS v = v)
    (ht : ¬ ticks <:+: v)
    (hA : hasSub fileMarkerA v = false) (hB : hasSub fileMarkerB v = false) :
    extract_code_blocks v = [("main.py".toList, v)] := by
  rw [extract_no_marker v hA hB]
  rw [if_neg (by rw [hs]; exact hv)]
  have hcf : cleanFallback v = v := by
    unfold cleanFallback
    rw [if_neg]
    rw [(hasSub_false_iff _ _).mpr ht]
    simp
  rw [hcf, hs]

/-! ## Claim C8 — extractor idempotence -/

/-- C8, counterexample: the extractor is not idempotent.  A blob naming
a file (`# File: a.py`) extracts to that filename, but re-extracting
the concatenated contents lands in the fallback name `main.py`; and a
blob whose fenced content is blank extracts a `main.py` mapped to the
empty string, while re-extracting the (empty) concatenation yields no
blocks at all. -/
theorem C8_counterexample :
    extract_code_blocks (concatExtract ("# File: a.py\ncode".toList)) ≠
      extract_code_blocks ("# File: a.py\ncode".toList) ∧
    extract_code_blocks (concatExtract ("x\n```\n```".toList)) ≠
      extract_code_blocks ("x\n```\n```".toList) := by
  constructor
  · decide
  · decide

/-- C8, amended: the extractor is idempotent on every blob that
contains no file marker (`# File:` / `# filename:`) and that — unless
it is entirely whitespace — extracts non-empty content: building
`extract_blob` by concatenating the extracted file contents and
re-extracting gives the same map. -/
theorem C8_extract_idempotent (text : Str)
    (hA : hasSub fileMarkerA text = false) (hB : hasSub fileMarkerB text = false)
    (hne : stripS text = [] ∨ concatExtract text ≠ []) :
    extract_code_blocks (concatExtract text) = extract_code_blocks text := by
  have hext := extract_no_marker text hA hB
  by_cases hstrip : stripS text = []
  · rw [if_pos hstrip] at hext
    have hcc : concatExtract text = [] := by
      unfold concatExtract
      rw [hext]
      rfl
    rw [hext, hcc]
    decide
  · rw [if_neg hstrip] at hext
    have hcc : concatExtract text = stripS (cleanFallback text) := by
      unfold concatExtract
      rw [hext]
      rfl
    have hv : concatExtract text ≠ [] := by
      rcases hne with h | h
      · exact absurd h hstrip
      · exact h
    rw [hcc] at hv
    have hvs : stripS (stripS (cleanFallback text)) = stripS (cleanFallback text) :=
      stripS_idem _
    have hvt : ¬ ticks <:+: stripS (cleanFallback text) := fun h =>
      cleanFallback_no_ticks text (h.trans (stripS_within _))
    have hvA : hasSub fileMarkerA (stripS (cleanFallback text)) = false := by
      rw [hasSub_false_iff]
      intro h
      exact cleanFallback_marker_free (by decide) (by decide) text
        ((hasSub_false_iff _ _).mp hA) (h.trans (stripS_within _))
    have hvB : hasSub fileMarkerB (stripS (cleanFallback text)) = false := by
      rw [hasSub_false_iff]
      intro h
      exact cleanFallback_marker_free (by decide) (by decide) text
        ((hasSub_false_iff _ _).mp hB) (h.trans (stripS_within _))
    rw [hcc, hext]
    exact extract_plain (stripS (cleanFallback text)) hv hvs hvt hvA hvB

/-- Witness for C8 (amended): a plain marker-free blob round-trips. -/
theorem C8_extract_idempotent_witness :
    extract_code_blocks (concatExtract ("print(42)".toList)) =
      extract_code_blocks ("print(42)".toList) :=
  C8_extract_idempotent ("print(42)".toList) (by decide) (by decide)
    (Or.inr (by decide))

end AgentSpec

